import Mathlib

/-!
Verification of the prompthub deep-research retrieval engine.

The development shallowly embeds the retrieval tools
(`deep_research/tools/retrieval_tools.py`), the workflow nodes
(`deep_research/nodes/research_nodes.py`) and the workflow driver
(`deep_research/workflows/research_workflow.py`).

Granularity of the embedding: documents are modelled at the token level
(a document is its id together with the token list `_tokenize` produces
from its text), and Python floats are modelled as real numbers.  File
reading, caching and printing are I/O and are not modelled.
-/

/-- A document as the retrieval tools see it after `_tokenize`:
its id (file path) paired with its token list. -/
abbrev Doc := String × List String

/-! ### Stable descending sort

Python's `sorted(..., key=score, reverse=True)` and `list.sort(...)` are
stable: elements with equal keys keep their original relative order.
`sortDesc` is a stable insertion sort by descending score modelling this:
an element moves past another only when the other's score is strictly
larger. -/

/-- Insert `x` into `l` behind every element whose score is strictly
larger, in front of everything else (so in front of equal scores coming
later, which is exactly stability for a descending sort). -/
noncomputable def insertDesc {α : Type} (score : α → ℝ) (x : α) : List α → List α
  | [] => [x]
  | y :: ys => if score x < score y then y :: insertDesc score x ys else x :: y :: ys

/-- Stable descending insertion sort by `score`, modelling Python's
stable `sorted(..., key=score, reverse=True)`. -/
noncomputable def sortDesc {α : Type} (score : α → ℝ) : List α → List α
  | [] => []
  | x :: xs => insertDesc score x (sortDesc score xs)

theorem mem_insertDesc {α : Type} (score : α → ℝ) (x y : α) (l : List α) :
    y ∈ insertDesc score x l ↔ y = x ∨ y ∈ l := by
  induction l with
  | nil => simp [insertDesc]
  | cons z zs ih =>
    by_cases h : score x < score z
    · simp only [insertDesc, if_pos h, List.mem_cons, ih]
      tauto
    · simp only [insertDesc, if_neg h, List.mem_cons]

theorem mem_sortDesc {α : Type} (score : α → ℝ) (y : α) (l : List α) :
    y ∈ sortDesc score l ↔ y ∈ l := by
  induction l with
  | nil => simp [sortDesc]
  | cons x xs ih =>
    simp only [sortDesc, mem_insertDesc, List.mem_cons, ih]

theorem length_insertDesc {α : Type} (score : α → ℝ) (x : α) (l : List α) :
    (insertDesc score x l).length = l.length + 1 := by
  induction l with
  | nil => simp [insertDesc]
  | cons z zs ih =>
    by_cases h : score x < score z
    · simp [insertDesc, if_pos h, ih]
    · simp [insertDesc, if_neg h]

theorem length_sortDesc {α : Type} (score : α → ℝ) (l : List α) :
    (sortDesc score l).length = l.length := by
  induction l with
  | nil => rfl
  | cons x xs ih => simp [sortDesc, length_insertDesc, ih]

theorem pairwise_insertDesc {α : Type} (score : α → ℝ) (x : α) (l : List α)
    (h : List.Pairwise (fun a b => score b ≤ score a) l) :
    List.Pairwise (fun a b => score b ≤ score a) (insertDesc score x l) := by
  induction l with
  | nil => simp [insertDesc]
  | cons y ys ih =>
    rw [List.pairwise_cons] at h
    obtain ⟨hy, hys⟩ := h
    by_cases hlt : score x < score y
    · rw [insertDesc, if_pos hlt, List.pairwise_cons]
      refine ⟨?_, ih hys⟩
      intro z hz
      rcases (mem_insertDesc score x z ys).mp hz with rfl | hz'
      · exact le_of_lt hlt
      · exact hy z hz'
    · rw [insertDesc, if_neg hlt, List.pairwise_cons]
      refine ⟨?_, List.pairwise_cons.mpr ⟨hy, hys⟩⟩
      intro z hz
      rcases List.mem_cons.mp hz with rfl | hz'
      · exact not_lt.mp hlt
      · exact le_trans (hy z hz') (not_lt.mp hlt)

theorem pairwise_sortDesc {α : Type} (score : α → ℝ) (l : List α) :
    List.Pairwise (fun a b => score b ≤ score a) (sortDesc score l) := by
  induction l with
  | nil => exact List.Pairwise.nil
  | cons x xs ih => exact pairwise_insertDesc score x _ ih

theorem filter_insertDesc {α : Type} (score : α → ℝ) (s : ℝ) (x : α) (l : List α)
    (hl : List.Pairwise (fun a b => score b ≤ score a) l) :
    (insertDesc score x l).filter (fun y => decide (score y = s)) =
      if score x = s then x :: l.filter (fun y => decide (score y = s))
      else l.filter (fun y => decide (score y = s)) := by
  induction l with
  | nil =>
    by_cases hx : score x = s
    · simp [insertDesc, List.filter, hx]
    · simp [insertDesc, List.filter, hx]
  | cons y ys ih =>
    rw [List.pairwise_cons] at hl
    obtain ⟨hy, hys⟩ := hl
    by_cases hlt : score x < score y
    · rw [insertDesc, if_pos hlt]
      by_cases hxs : score x = s
      · by_cases hysc : score y = s
        · exfalso
          rw [hxs, hysc] at hlt
          exact lt_irrefl s hlt
        · rw [if_pos hxs]
          rw [List.filter_cons, if_neg (by simpa using hysc), ih hys, if_pos hxs,
            List.filter_cons, if_neg (by simpa using hysc)]
      · rw [if_neg hxs, List.filter_cons, ih hys, if_neg hxs, List.filter_cons]
    · rw [insertDesc, if_neg hlt]
      by_cases hxs : score x = s
      · rw [if_pos hxs, List.filter_cons, if_pos (by simpa using hxs)]
      · rw [if_neg hxs, List.filter_cons, if_neg (by simpa using hxs)]

theorem filter_sortDesc {α : Type} (score : α → ℝ) (s : ℝ) (l : List α) :
    (sortDesc score l).filter (fun y => decide (score y = s)) =
      l.filter (fun y => decide (score y = s)) := by
  induction l with
  | nil => rfl
  | cons x xs ih =>
    rw [sortDesc, filter_insertDesc score s x _ (pairwise_sortDesc score xs)]
    by_cases hx : score x = s
    · rw [if_pos hx, ih, List.filter_cons, if_pos (by simpa using hx)]
    · rw [if_neg hx, ih, List.filter_cons, if_neg (by simpa using hx)]

/-! ### BM25 retrieval (`BM25RetrievalTool`)

`index_documents` stores, for every document, its token list, its length
and the corpus statistics; `search` scores every indexed document against
the tokenized query, keeps the strictly positive scores, sorts them
descending (stably) and returns the top `k`. -/

/-- Number of occurrences of term `t` in a token list: the
`term_frequencies[term][doc_id]` entry built by `index_documents`
(present exactly when the count is positive). -/
def termFreq (toks : List String) (t : String) : ℕ := toks.count t

/-- Document frequency of `t`: the number of indexed documents containing
`t`, as accumulated in `document_frequencies`. -/
def bm25Df (docs : List Doc) (t : String) : ℕ :=
  (docs.filter (fun d => decide (t ∈ d.2))).length

/-- Average document length `avg_doc_length`: total token count divided by
the number of documents, `0` for an empty corpus. -/
noncomputable def avgDocLen (docs : List Doc) : ℝ :=
  if docs.isEmpty then 0
  else ((docs.map (fun d => (d.2.length : ℝ))).sum) / (docs.length : ℝ)

/-- One term's contribution inside `BM25RetrievalTool.search`:
`idf * tf*(k1+1) / (tf + k1*(1 - b + b*dl/avgdl))` with
`idf = log((N - df + 0.5) / (df + 0.5))`. -/
noncomputable def bm25TermScore (k1 b : ℝ) (n df tf dl : ℕ) (avgdl : ℝ) : ℝ :=
  Real.log (((n : ℝ) - (df : ℝ) + 1 / 2) / ((df : ℝ) + 1 / 2)) *
    ((tf : ℝ) * (k1 + 1) / ((tf : ℝ) + k1 * (1 - b + b * ((dl : ℝ) / avgdl))))

/-- BM25 score of document `d` for query tokens `q`: the sum over the
query token list (duplicates included, as in the Python loop) of the term
score, a term contributing only when it occurs in the document. -/
noncomputable def bm25Score (k1 b : ℝ) (docs : List Doc) (q : List String) (d : Doc) : ℝ :=
  (q.map (fun t =>
    if 0 < termFreq d.2 t then
      bm25TermScore k1 b docs.length (bm25Df docs t) (termFreq d.2 t) d.2.length
        (avgDocLen docs)
    else 0)).sum

/-- The `doc_scores` dict of `search`: documents in indexing order paired
with their scores, keeping only strictly positive scores
(`if score > 0`). -/
noncomputable def bm25DocScores (k1 b : ℝ) (docs : List Doc) (q : List String) :
    List (String × ℝ) :=
  (docs.map (fun d => (d.1, bm25Score k1 b docs q d))).filter (fun p => decide (0 < p.2))

/-- `BM25RetrievalTool.search`: empty answer on an empty index, otherwise
the positively scored documents sorted by descending score (Python's
stable `sorted`) truncated to `top_k`. -/
noncomputable def bm25Search (k1 b : ℝ) (docs : List Doc) (q : List String) (topk : ℕ) :
    List (String × ℝ) :=
  if docs.isEmpty then [] else (sortDesc Prod.snd (bm25DocScores k1 b docs q)).take topk

/-- The `relevance_score` stored in a BM25 `SearchResult`:
`min(score / 10.0, 1.0)`. -/
noncomputable def bm25Relevance (p : String × ℝ) : ℝ := min (p.2 / 10) 1

/-! ### Facts about `bm25Search` shared by several claims -/

/-- Every entry surviving the `if score > 0` filter of `search` has a
strictly positive score. -/
theorem bm25DocScores_pos (k1 b : ℝ) (docs : List Doc) (q : List String) :
    ∀ p ∈ bm25DocScores k1 b docs q, 0 < p.2 := by
  intro p hp
  rw [bm25DocScores, List.mem_filter] at hp
  simpa using hp.2

/-- Every result returned by `bm25Search` has a strictly positive raw
score. -/
theorem bm25Search_pos (k1 b : ℝ) (docs : List Doc) (q : List String) (topk : ℕ) :
    ∀ p ∈ bm25Search k1 b docs q topk, 0 < p.2 := by
  intro p hp
  rw [bm25Search] at hp
  by_cases hd : docs.isEmpty
  · rw [if_pos hd] at hp
    simp at hp
  · rw [if_neg hd] at hp
    have hp' : p ∈ sortDesc Prod.snd (bm25DocScores k1 b docs q) :=
      (List.take_sublist _ _).subset hp
    exact bm25DocScores_pos k1 b docs q p ((mem_sortDesc _ _ _).mp hp')

/-- Members of `bm25Search` come from the scored document list. -/
theorem bm25Search_mem (k1 b : ℝ) (docs : List Doc) (q : List String) (topk : ℕ) :
    ∀ p ∈ bm25Search k1 b docs q topk,
      ∃ d ∈ docs, p = (d.1, bm25Score k1 b docs q d) := by
  intro p hp
  rw [bm25Search] at hp
  by_cases hd : docs.isEmpty
  · rw [if_pos hd] at hp
    simp at hp
  · rw [if_neg hd] at hp
    have hp' : p ∈ sortDesc Prod.snd (bm25DocScores k1 b docs q) :=
      (List.take_sublist _ _).subset hp
    have hp'' := (mem_sortDesc _ _ _).mp hp'
    rw [bm25DocScores, List.mem_filter, List.mem_map] at hp''
    obtain ⟨⟨d, hd', hdp⟩, _⟩ := hp''
    exact ⟨d, hd', hdp.symm⟩

/-- Claim C1 (counterexample): on the one-document corpus whose document
consists of the single token `foo`, the query `foo` matches the document
but its BM25 score is `log (1/3) < 0` — the idf is negative because the
term occurs in more than half the corpus.  This refutes
`score(d,q) ≥ 0` for every document containing a query term. -/
theorem bm25_negative_score_example :
    0 < termFreq ["foo"] "foo" ∧
    bm25Score (3/2) (3/4) [("d", ["foo"])] ["foo"] ("d", ["foo"]) < 0 := by
  refine ⟨by decide, ?_⟩
  have havg : avgDocLen [("d", ["foo"])] = 1 := by
    simp [avgDocLen]
  have h : bm25Score (3/2) (3/4) [("d", ["foo"])] ["foo"] ("d", ["foo"]) =
      Real.log ((1 : ℝ) / 3) := by
    rw [bm25Score]
    simp only [List.map_cons, List.map_nil, List.sum_cons, List.sum_nil]
    rw [if_pos (by decide : 0 < termFreq ["foo"] "foo")]
    rw [show bm25Df [("d", ["foo"])] "foo" = 1 from by decide]
    rw [show termFreq ["foo"] "foo" = 1 from by decide]
    rw [havg, bm25TermScore]
    norm_num
  rw [h]
  exact Real.log_neg (by norm_num) (by norm_num)

/-- Claim C1 (amended): only documents with strictly positive BM25 score
are returned; a document sharing zero terms with the query has score
exactly `0` and is therefore absent from the result list. -/
theorem bm25_zero_overlap_excluded (k1 b : ℝ) (docs : List Doc) (q : List String)
    (d : Doc) (topk : ℕ) (hmem : d ∈ docs) (hnodup : (docs.map Prod.fst).Nodup)
    (hshare : ∀ t ∈ q, termFreq d.2 t = 0) :
    bm25Score k1 b docs q d = 0 ∧
    (∀ p ∈ bm25Search k1 b docs q topk, 0 < p.2) ∧
    d.1 ∉ (bm25Search k1 b docs q topk).map Prod.fst := by
  have hzero : bm25Score k1 b docs q d = 0 := by
    rw [bm25Score]
    apply List.sum_eq_zero
    intro x hx
    rw [List.mem_map] at hx
    obtain ⟨t, ht, hxt⟩ := hx
    rw [← hxt, if_neg]
    rw [hshare t ht]
    exact lt_irrefl 0
  refine ⟨hzero, bm25Search_pos k1 b docs q topk, ?_⟩
  intro hcontra
  rw [List.mem_map] at hcontra
  obtain ⟨p, hp, hp1⟩ := hcontra
  obtain ⟨d', hd', hpd⟩ := bm25Search_mem k1 b docs q topk p hp
  have hps := bm25Search_pos k1 b docs q topk p hp
  have hdd : d' = d := by
    apply List.inj_on_of_nodup_map hnodup hd' hmem
    rw [hpd] at hp1
    exact hp1
  rw [hpd, hdd] at hps
  simp only [hzero] at hps
  exact lt_irrefl 0 hps

/-- Claim C1 (amended, witness): concrete two-document corpus where the
second document shares no term with the query. -/
theorem bm25_zero_overlap_excluded_witness :
    bm25Score (3/2) (3/4) [("a", ["foo"]), ("b", ["bar"])] ["foo"] ("b", ["bar"]) = 0 ∧
    (∀ p ∈ bm25Search (3/2) (3/4) [("a", ["foo"]), ("b", ["bar"])] ["foo"] 10, 0 < p.2) ∧
    "b" ∉ (bm25Search (3/2) (3/4) [("a", ["foo"]), ("b", ["bar"])] ["foo"] 10).map
      Prod.fst :=
  bm25_zero_overlap_excluded (3/2) (3/4) [("a", ["foo"]), ("b", ["bar"])] ["foo"]
    ("b", ["bar"]) 10 (by decide) (by decide) (by decide)

/-! ### BM25 ordering (claim C8) -/

/-- Five-document corpus used to exhibit the BM25 tie-breaking order:
`b` and `a` (indexed in that order) both contain the query term, the
remaining three documents pad the corpus so the idf stays positive. -/
def corpus8 : List Doc :=
  [("b", ["foo"]), ("a", ["foo"]), ("c", ["bar"]), ("d", ["baz"]), ("e", ["qux"])]

theorem corpus8_score_foo :
    bm25Score (3/2) (3/4) corpus8 ["foo"] ("b", ["foo"]) = Real.log ((7 : ℝ) / 5) := by
  have havg : avgDocLen corpus8 = 1 := by
    simp [avgDocLen, corpus8]
    norm_num
  rw [bm25Score]
  simp only [List.map_cons, List.map_nil, List.sum_cons, List.sum_nil]
  rw [if_pos (by decide : 0 < termFreq ["foo"] "foo")]
  rw [show bm25Df corpus8 "foo" = 2 from by decide]
  rw [show termFreq ["foo"] "foo" = 1 from by decide]
  rw [show corpus8.length = 5 from by decide]
  rw [havg, bm25TermScore]
  norm_num

theorem corpus8_score_pos :
    0 < bm25Score (3/2) (3/4) corpus8 ["foo"] ("b", ["foo"]) := by
  rw [corpus8_score_foo]
  exact Real.log_pos (by norm_num)

/-- Claim C8 (counterexample): in `corpus8` the documents `b` and `a`
receive equal positive scores, and the search returns them in indexing
order `[b, a]`, not in ascending id order (`"a" < "b"`). -/
theorem bm25_tiebreak_example :
    (bm25Search (3/2) (3/4) corpus8 ["foo"] 10).map Prod.fst = ["b", "a"] ∧
    bm25Score (3/2) (3/4) corpus8 ["foo"] ("b", ["foo"]) =
      bm25Score (3/2) (3/4) corpus8 ["foo"] ("a", ["foo"]) ∧
    ("a" : String) < "b" := by
  refine ⟨?_, rfl, ?_⟩
  · have hzero : ∀ toks : List String, termFreq toks "foo" = 0 →
        bm25Score (3/2) (3/4) corpus8 ["foo"] ("x", toks) = 0 := by
      intro toks htf
      rw [bm25Score]
      simp [htf]
    have hb := corpus8_score_pos
    have hscores : bm25DocScores (3/2) (3/4) corpus8 ["foo"] =
        [("b", bm25Score (3/2) (3/4) corpus8 ["foo"] ("b", ["foo"])),
         ("a", bm25Score (3/2) (3/4) corpus8 ["foo"] ("b", ["foo"]))] := by
      rw [bm25DocScores]
      show List.filter (fun p => decide (0 < p.2))
        [("b", bm25Score (3/2) (3/4) corpus8 ["foo"] ("b", ["foo"])),
         ("a", bm25Score (3/2) (3/4) corpus8 ["foo"] ("a", ["foo"])),
         ("c", bm25Score (3/2) (3/4) corpus8 ["foo"] ("c", ["bar"])),
         ("d", bm25Score (3/2) (3/4) corpus8 ["foo"] ("d", ["baz"])),
         ("e", bm25Score (3/2) (3/4) corpus8 ["foo"] ("e", ["qux"]))] = _
      have hc : bm25Score (3/2) (3/4) corpus8 ["foo"] ("c", ["bar"]) = 0 :=
        hzero ["bar"] (by decide)
      have hd : bm25Score (3/2) (3/4) corpus8 ["foo"] ("d", ["baz"]) = 0 :=
        hzero ["baz"] (by decide)
      have he : bm25Score (3/2) (3/4) corpus8 ["foo"] ("e", ["qux"]) = 0 :=
        hzero ["qux"] (by decide)
      have ha' : bm25Score (3/2) (3/4) corpus8 ["foo"] ("a", ["foo"]) =
          bm25Score (3/2) (3/4) corpus8 ["foo"] ("b", ["foo"]) := rfl
      simp only [List.filter_cons, List.filter_nil, ha', hc, hd, he]
      simp only [decide_eq_true hb]
      simp [lt_irrefl]
    rw [bm25Search, if_neg (by decide), hscores]
    rw [show sortDesc (Prod.snd)
        [("b", bm25Score (3/2) (3/4) corpus8 ["foo"] ("b", ["foo"])),
         ("a", bm25Score (3/2) (3/4) corpus8 ["foo"] ("b", ["foo"]))] =
        [("b", bm25Score (3/2) (3/4) corpus8 ["foo"] ("b", ["foo"])),
         ("a", bm25Score (3/2) (3/4) corpus8 ["foo"] ("b", ["foo"]))] from by
      rw [sortDesc, sortDesc, sortDesc, insertDesc, insertDesc,
        if_neg (lt_irrefl _)]]
    rfl
  · rw [String.lt_iff_toList_lt]
    decide

/-- Claim C8 (amended): `bm25Search` returns the top-`k` results in
descending score order, and documents with equal scores appear in corpus
indexing (insertion) order — Python's stable sort preserves the `doc_scores`
insertion order among ties — not in ascending document-id order. -/
theorem bm25_search_order (k1 b : ℝ) (docs : List Doc) (q : List String) (topk : ℕ) :
    List.Pairwise (fun p p' => p'.2 ≤ p.2) (bm25Search k1 b docs q topk) ∧
    (∀ s : ℝ, (sortDesc Prod.snd (bm25DocScores k1 b docs q)).filter
        (fun p => decide (p.2 = s)) =
      (bm25DocScores k1 b docs q).filter (fun p => decide (p.2 = s))) := by
  constructor
  · rw [bm25Search]
    by_cases hd : docs.isEmpty
    · rw [if_pos hd]
      exact List.Pairwise.nil
    · rw [if_neg hd]
      exact List.Pairwise.sublist (List.take_sublist _ _) (pairwise_sortDesc Prod.snd _)
  · intro s
    exact filter_sortDesc Prod.snd s _

/-! ### Dense retrieval (`DenseRetrievalTool`)

Embeddings are TF-IDF vectors over the sorted vocabulary list, normalized
to unit L2 norm when the norm is positive. -/

/-- The sorted vocabulary list `vocab_list = sorted(list(self.vocabulary))`
accumulated from all indexed token lists. -/
def vocabList (docs : List Doc) : List String :=
  List.insertionSort (· ≤ ·) ((docs.flatMap Prod.snd).dedup)

/-- `word_doc_count[word]`: number of indexed documents containing `word`
(computed from each document's token set in `_calculate_idf_scores`). -/
def wordDocCount (docs : List Doc) (w : String) : ℕ :=
  (docs.filter (fun d => decide (w ∈ d.2))).length

/-- `idf_scores[word] = log(doc_count / (word_doc_count[word] + 1))`.
Every vocabulary word has an entry, so the `idf_scores.get(word, 0)`
lookup in `_text_to_vector` always hits this value. -/
noncomputable def idfScore (docs : List Doc) (w : String) : ℝ :=
  Real.log ((docs.length : ℝ) / ((wordDocCount docs w : ℝ) + 1))

/-- The unnormalized TF-IDF vector of `_text_to_vector`: one entry per
vocabulary word, `tf * idf` when the word occurs in the text
(`tf = count / len(words)`), `0` otherwise. -/
noncomputable def rawVector (docs : List Doc) (words : List String) : List ℝ :=
  (vocabList docs).map (fun w =>
    if 0 < words.count w then
      ((words.count w : ℝ) / (words.length : ℝ)) * idfScore docs w
    else 0)

/-- Euclidean norm `np.linalg.norm`. -/
noncomputable def l2norm (v : List ℝ) : ℝ :=
  Real.sqrt ((v.map (fun x => x ^ 2)).sum)

/-- `_text_to_vector`: the raw TF-IDF vector, divided by its norm when
the norm is positive. -/
noncomputable def textToVector (docs : List Doc) (words : List String) : List ℝ :=
  if 0 < l2norm (rawVector docs words) then
    (rawVector docs words).map (fun x => x / l2norm (rawVector docs words))
  else rawVector docs words

/-- `np.dot` of two vectors of equal length. -/
noncomputable def dotProduct (v w : List ℝ) : ℝ := (List.zipWith (· * ·) v w).sum

/-- `_cosine_similarity`: `0` when either norm vanishes, otherwise the
normalized dot product. -/
noncomputable def cosineSimilarity (v w : List ℝ) : ℝ :=
  if l2norm v = 0 ∨ l2norm w = 0 then 0 else dotProduct v w / (l2norm v * l2norm w)

/-- `DenseRetrievalTool.search`: empty on an empty index, otherwise the
documents whose similarity to the query vector is at least `threshold`,
sorted by descending similarity (stable) and truncated to `top_k`.  The
returned `relevance_score` is the similarity itself. -/
noncomputable def denseSearch (docs : List Doc) (query : List String) (topk : ℕ)
    (threshold : ℝ) : List (String × ℝ) :=
  if docs.isEmpty then []
  else (sortDesc Prod.snd
    ((docs.map (fun d =>
        (d.1, cosineSimilarity (textToVector docs query) (textToVector docs d.2)))).filter
      (fun p => decide (threshold ≤ p.2)))).take topk

theorem sum_sq_nonneg (v : List ℝ) : 0 ≤ (v.map (fun x => x ^ 2)).sum := by
  apply List.sum_nonneg
  intro x hx
  rw [List.mem_map] at hx
  obtain ⟨y, _, hy⟩ := hx
  rw [← hy]
  exact sq_nonneg y

/-- Cauchy-Schwarz for the `zipWith`-style dot product used by
`_cosine_similarity`. -/
theorem dot_sq_le_sum_sq (v w : List ℝ) :
    ((List.zipWith (· * ·) v w).sum) ^ 2 ≤
      (v.map (fun x => x ^ 2)).sum * (w.map (fun x => x ^ 2)).sum := by
  induction v generalizing w with
  | nil => simp
  | cons a v ih =>
    cases w with
    | nil => simp
    | cons b w =>
      simp only [List.zipWith_cons_cons, List.map_cons, List.sum_cons]
      have h := ih w
      have hA := sum_sq_nonneg v
      have hB := sum_sq_nonneg w
      rcases eq_or_lt_of_le hB with hB0 | hB0
      · have hS : (List.zipWith (· * ·) v w).sum = 0 := by
          have h2 : ((List.zipWith (· * ·) v w).sum) ^ 2 ≤ 0 := by
            rw [← hB0] at h
            simpa using h
          exact pow_eq_zero_iff (by norm_num) |>.mp
            (le_antisymm h2 (sq_nonneg _))
        rw [hS, ← hB0]
        nlinarith [hA, sq_nonneg a, sq_nonneg b]
      · nlinarith [h, hA, sq_nonneg ((List.zipWith (· * ·) v w).sum * b -
          a * (w.map (fun x => x ^ 2)).sum), sq_nonneg b]

theorem dotProduct_le_norms (v w : List ℝ) : dotProduct v w ≤ l2norm v * l2norm w := by
  have h1 : dotProduct v w ≤ |dotProduct v w| := le_abs_self _
  have h2 : |dotProduct v w| = Real.sqrt ((dotProduct v w) ^ 2) :=
    (Real.sqrt_sq_eq_abs _).symm
  have h3 : Real.sqrt ((dotProduct v w) ^ 2) ≤
      Real.sqrt ((v.map (fun x => x ^ 2)).sum * (w.map (fun x => x ^ 2)).sum) :=
    Real.sqrt_le_sqrt (dot_sq_le_sum_sq v w)
  rw [Real.sqrt_mul (sum_sq_nonneg v)] at h3
  calc dotProduct v w ≤ |dotProduct v w| := h1
    _ = Real.sqrt ((dotProduct v w) ^ 2) := h2
    _ ≤ l2norm v * l2norm w := h3

/-- Cosine similarity, as computed by `_cosine_similarity`, never
exceeds `1`. -/
theorem cosineSimilarity_le_one (v w : List ℝ) : cosineSimilarity v w ≤ 1 := by
  rw [cosineSimilarity]
  by_cases h : l2norm v = 0 ∨ l2norm w = 0
  · rw [if_pos h]
    norm_num
  · rw [if_neg h]
    push_neg at h
    have hv : 0 < l2norm v := lt_of_le_of_ne (Real.sqrt_nonneg _) (Ne.symm h.1)
    have hw : 0 < l2norm w := lt_of_le_of_ne (Real.sqrt_nonneg _) (Ne.symm h.2)
    rw [div_le_one (mul_pos hv hw)]
    exact dotProduct_le_norms v w

/-- Claim C7: a query whose tokens are all out of vocabulary (including a
token-free query) produces the all-zero query vector, has cosine
similarity `0` with every indexed document, and `search` returns the
empty result list (the threshold filter removes every document) instead
of raising an error. -/
theorem dense_oov_query_empty (docs : List Doc) (query : List String) (topk : ℕ)
    (threshold : ℝ) (hne : docs ≠ [])
    (hoov : ∀ t ∈ query, t ∉ docs.flatMap Prod.snd) (hθ : 0 < threshold) :
    (∀ x ∈ textToVector docs query, x = 0) ∧
    (∀ d ∈ docs,
      cosineSimilarity (textToVector docs query) (textToVector docs d.2) = 0) ∧
    denseSearch docs query topk threshold = [] := by
  have hraw : ∀ x ∈ rawVector docs query, x = 0 := by
    intro x hx
    rw [rawVector, List.mem_map] at hx
    obtain ⟨w, hw, hxw⟩ := hx
    have hwv : w ∈ docs.flatMap Prod.snd := by
      have := (List.perm_insertionSort (· ≤ ·) ((docs.flatMap Prod.snd).dedup)).mem_iff.mp
        (by simpa [vocabList] using hw)
      exact List.mem_dedup.mp this
    rw [← hxw, if_neg]
    intro hcount
    exact hoov w (List.count_pos_iff.mp hcount) hwv
  have hnorm : l2norm (rawVector docs query) = 0 := by
    rw [l2norm]
    have : ((rawVector docs query).map (fun x => x ^ 2)).sum = 0 := by
      apply List.sum_eq_zero
      intro y hy
      rw [List.mem_map] at hy
      obtain ⟨x, hx, hxy⟩ := hy
      rw [← hxy, hraw x hx]
      norm_num
    rw [this, Real.sqrt_zero]
  have hvec : textToVector docs query = rawVector docs query := by
    rw [textToVector, if_neg]
    rw [hnorm]
    exact lt_irrefl 0
  have hqnorm : l2norm (textToVector docs query) = 0 := by rw [hvec, hnorm]
  have hcos : ∀ d ∈ docs,
      cosineSimilarity (textToVector docs query) (textToVector docs d.2) = 0 := by
    intro d _
    rw [cosineSimilarity, if_pos (Or.inl hqnorm)]
  refine ⟨?_, hcos, ?_⟩
  · intro x hx
    rw [hvec] at hx
    exact hraw x hx
  · rw [denseSearch, if_neg (by simpa [List.isEmpty_iff] using hne)]
    have hfil : (docs.map (fun d =>
        (d.1, cosineSimilarity (textToVector docs query)
          (textToVector docs d.2)))).filter (fun p => decide (threshold ≤ p.2)) = [] := by
      rw [List.filter_eq_nil_iff]
      intro p hp
      rw [List.mem_map] at hp
      obtain ⟨d, hd, hdp⟩ := hp
      rw [← hdp]
      simp only [decide_eq_true_eq]
      rw [hcos d hd]
      exact not_le.mpr hθ
    rw [hfil]
    simp [sortDesc]

/-- Claim C7 (witness): concrete one-document index and a fully
out-of-vocabulary query. -/
theorem dense_oov_query_empty_witness :
    (∀ x ∈ textToVector [("a", ["foo"])] ["zzz"], x = 0) ∧
    (∀ d ∈ [(("a" : String), ["foo"])],
      cosineSimilarity (textToVector [("a", ["foo"])] ["zzz"])
        (textToVector [("a", ["foo"])] d.2) = 0) ∧
    denseSearch [("a", ["foo"])] ["zzz"] 10 (1/10) = [] :=
  dense_oov_query_empty [("a", ["foo"])] ["zzz"] 10 (1/10) (by decide)
    (by decide) (by norm_num)

/-- Every result of `denseSearch` at the default threshold `0.1` carries a
relevance score in `[0, 1]`: the threshold filter bounds it below and
Cauchy-Schwarz bounds the cosine similarity above. -/
theorem denseSearch_score_bounds (docs : List Doc) (query : List String) (topk : ℕ) :
    ∀ p ∈ denseSearch docs query topk (1/10), 0 ≤ p.2 ∧ p.2 ≤ 1 := by
  intro p hp
  rw [denseSearch] at hp
  by_cases hd : docs.isEmpty
  · rw [if_pos hd] at hp
    simp at hp
  · rw [if_neg hd] at hp
    have hp' := (mem_sortDesc Prod.snd p _).mp ((List.take_sublist _ _).subset hp)
    rw [List.mem_filter] at hp'
    obtain ⟨hmem, hthr⟩ := hp'
    simp only [decide_eq_true_eq] at hthr
    rw [List.mem_map] at hmem
    obtain ⟨d, _, hdp⟩ := hmem
    constructor
    · linarith
    · rw [← hdp]
      exact cosineSimilarity_le_one _ _

/-! ### Hybrid retrieval (`HybridRetrievalTool`)

`search` runs the dense and sparse sub-searches, then builds the
`combined_scores` dict: the first loop inserts every dense result (its
key mapped to `(dense_score, 0)`), the second loop inserts every sparse
result, updating the sparse slot of an existing entry or appending a new
entry with dense slot `0`.  Dict insertion order is preserved, matching
Python dict semantics. -/

/-- One step of the dense loop of `HybridRetrievalTool.search`: set the
`dense_score` slot of key `kv.1`, appending a fresh `(key, score, 0)`
entry when absent. -/
def upsertDense (l : List (String × ℝ × ℝ)) (kv : String × ℝ) : List (String × ℝ × ℝ) :=
  match l with
  | [] => [(kv.1, kv.2, 0)]
  | e :: rest => if e.1 = kv.1 then (e.1, kv.2, e.2.2) :: rest else e :: upsertDense rest kv

/-- One step of the sparse loop: set the `sparse_score` slot of key
`kv.1`, appending a fresh `(key, 0, score)` entry when absent. -/
def upsertSparse (l : List (String × ℝ × ℝ)) (kv : String × ℝ) : List (String × ℝ × ℝ) :=
  match l with
  | [] => [(kv.1, 0, kv.2)]
  | e :: rest => if e.1 = kv.1 then (e.1, e.2.1, kv.2) :: rest else e :: upsertSparse rest kv

/-- The `combined_scores` dict after both loops of
`HybridRetrievalTool.search`. -/
def hybridDict (dense sparse : List (String × ℝ)) : List (String × ℝ × ℝ) :=
  sparse.foldl upsertSparse (dense.foldl upsertDense [])

/-- The fused `hybrid_score = dense_weight * dense + sparse_weight * sparse`
per dict entry, in dict order. -/
noncomputable def hybridScores (wd ws : ℝ) (dense sparse : List (String × ℝ)) :
    List (String × ℝ) :=
  (hybridDict dense sparse).map (fun e => (e.1, wd * e.2.1 + ws * e.2.2))

/-- `HybridRetrievalTool.search` final step: stable descending sort by
fused score, truncated to `top_k`. -/
noncomputable def hybridSearch (wd ws : ℝ) (dense sparse : List (String × ℝ))
    (topk : ℕ) : List (String × ℝ) :=
  (sortDesc Prod.snd (hybridScores wd ws dense sparse)).take topk

theorem mem_keys_upsertDense (l : List (String × ℝ × ℝ)) (kv : String × ℝ) (k : String) :
    k ∈ (upsertDense l kv).map Prod.fst ↔ k ∈ l.map Prod.fst ∨ k = kv.1 := by
  induction l with
  | nil => simp [upsertDense]
  | cons e rest ih =>
    by_cases he : e.1 = kv.1
    · rw [upsertDense, if_pos he]
      simp only [List.map_cons, List.mem_cons]
      rw [he]
      tauto
    · rw [upsertDense, if_neg he]
      simp only [List.map_cons, List.mem_cons, ih]
      tauto

theorem mem_keys_upsertSparse (l : List (String × ℝ × ℝ)) (kv : String × ℝ) (k : String) :
    k ∈ (upsertSparse l kv).map Prod.fst ↔ k ∈ l.map Prod.fst ∨ k = kv.1 := by
  induction l with
  | nil => simp [upsertSparse]
  | cons e rest ih =>
    by_cases he : e.1 = kv.1
    · rw [upsertSparse, if_pos he]
      simp only [List.map_cons, List.mem_cons]
      rw [he]
      tauto
    · rw [upsertSparse, if_neg he]
      simp only [List.map_cons, List.mem_cons, ih]
      tauto

theorem upsertDense_not_mem (l : List (String × ℝ × ℝ)) (kv : String × ℝ)
    (h : kv.1 ∉ l.map Prod.fst) : upsertDense l kv = l ++ [(kv.1, kv.2, 0)] := by
  induction l with
  | nil => rfl
  | cons e rest ih =>
    simp only [List.map_cons, List.mem_cons, not_or] at h
    rw [upsertDense, if_neg (fun he => h.1 he.symm), ih h.2, List.cons_append]

theorem upsertSparse_not_mem (l : List (String × ℝ × ℝ)) (kv : String × ℝ)
    (h : kv.1 ∉ l.map Prod.fst) : upsertSparse l kv = l ++ [(kv.1, 0, kv.2)] := by
  induction l with
  | nil => rfl
  | cons e rest ih =>
    simp only [List.map_cons, List.mem_cons, not_or] at h
    rw [upsertSparse, if_neg (fun he => h.1 he.symm), ih h.2, List.cons_append]

theorem mem_upsertSparse_of_ne (l : List (String × ℝ × ℝ)) (kv : String × ℝ)
    (e : String × ℝ × ℝ) (he : e ∈ l) (hne : e.1 ≠ kv.1) : e ∈ upsertSparse l kv := by
  induction l with
  | nil => simp at he
  | cons f rest ih =>
    by_cases hf : f.1 = kv.1
    · rw [upsertSparse, if_pos hf]
      rcases List.mem_cons.mp he with rfl | he'
      · exact absurd hf hne
      · exact List.mem_cons_of_mem _ he'
    · rw [upsertSparse, if_neg hf]
      rcases List.mem_cons.mp he with rfl | he'
      · exact List.mem_cons_self _ _
      · exact List.mem_cons_of_mem _ (ih he')

theorem upsertSparse_updates (l : List (String × ℝ × ℝ)) (k : String) (dv sv v : ℝ)
    (hnd : (l.map Prod.fst).Nodup) (he : (k, dv, sv) ∈ l) :
    (k, dv, v) ∈ upsertSparse l (k, v) := by
  induction l with
  | nil => simp at he
  | cons f rest ih =>
    simp only [List.map_cons, List.nodup_cons] at hnd
    by_cases hf : f.1 = k
    · rw [upsertSparse, if_pos hf]
      rcases List.mem_cons.mp he with heq | he'
      · rw [← heq]
        exact List.mem_cons_self _ _
      · exfalso
        apply hnd.1
        rw [hf]
        exact List.mem_map.mpr ⟨(k, dv, sv), he', rfl⟩
    · rw [upsertSparse, if_neg hf]
      rcases List.mem_cons.mp he with heq | he'
      · exfalso
        apply hf
        rw [← heq]
      · exact List.mem_cons_of_mem _ (ih hnd.2 he')

theorem nodup_keys_upsertSparse (l : List (String × ℝ × ℝ)) (kv : String × ℝ)
    (h : (l.map Prod.fst).Nodup) : ((upsertSparse l kv).map Prod.fst).Nodup := by
  induction l with
  | nil => simp [upsertSparse]
  | cons f rest ih =>
    simp only [List.map_cons, List.nodup_cons] at h
    by_cases hf : f.1 = kv.1
    · rw [upsertSparse, if_pos hf]
      simp only [List.map_cons, List.nodup_cons]
      exact ⟨h.1, h.2⟩
    · rw [upsertSparse, if_neg hf]
      simp only [List.map_cons, List.nodup_cons]
      refine ⟨?_, ih h.2⟩
      intro hcontra
      rcases (mem_keys_upsertSparse rest kv f.1).mp hcontra with hmem | heq
      · exact h.1 hmem
      · exact hf heq

theorem foldl_upsertDense_eq (d : List (String × ℝ)) (acc : List (String × ℝ × ℝ))
    (hd : (d.map Prod.fst).Nodup) (hdisj : ∀ p ∈ d, p.1 ∉ acc.map Prod.fst) :
    d.foldl upsertDense acc = acc ++ d.map (fun p => (p.1, p.2, 0)) := by
  induction d generalizing acc with
  | nil => simp
  | cons p d ih =>
    simp only [List.map_cons, List.nodup_cons] at hd
    rw [List.foldl_cons, upsertDense_not_mem acc p (hdisj p (List.mem_cons_self _ _))]
    have hdisj' : ∀ q ∈ d, q.1 ∉ (acc ++ [(p.1, p.2, 0)]).map Prod.fst := by
      intro q hq
      simp only [List.map_append, List.mem_append, List.map_cons, List.map_nil,
        List.mem_singleton, not_or]
      refine ⟨hdisj q (List.mem_cons_of_mem _ hq), ?_⟩
      intro hqp
      apply hd.1
      rw [← hqp]
      exact List.mem_map.mpr ⟨q, hq, rfl⟩
    rw [ih (acc ++ [(p.1, p.2, 0)]) hd.2 hdisj']
    simp

theorem mem_keys_foldl_upsertSparse (s : List (String × ℝ)) (acc : List (String × ℝ × ℝ))
    (k : String) :
    k ∈ (s.foldl upsertSparse acc).map Prod.fst ↔
      k ∈ acc.map Prod.fst ∨ k ∈ s.map Prod.fst := by
  induction s generalizing acc with
  | nil => simp
  | cons q s ih =>
    rw [List.foldl_cons, ih, mem_keys_upsertSparse]
    simp only [List.map_cons, List.mem_cons]
    tauto

theorem mem_foldl_upsertSparse_of_ne (s : List (String × ℝ)) (acc : List (String × ℝ × ℝ))
    (e : String × ℝ × ℝ) (he : e ∈ acc) (hne : e.1 ∉ s.map Prod.fst) :
    e ∈ s.foldl upsertSparse acc := by
  induction s generalizing acc with
  | nil => simpa using he
  | cons q s ih =>
    simp only [List.map_cons, List.mem_cons, not_or] at hne
    rw [List.foldl_cons]
    exact ih (upsertSparse acc q) (mem_upsertSparse_of_ne acc q e he hne.1) hne.2

theorem foldl_upsertSparse_updates (s : List (String × ℝ)) (acc : List (String × ℝ × ℝ))
    (k : String) (dv sv v : ℝ) (hacc : (acc.map Prod.fst).Nodup)
    (hs : (s.map Prod.fst).Nodup) (he : (k, dv, sv) ∈ acc) (hks : (k, v) ∈ s) :
    (k, dv, v) ∈ s.foldl upsertSparse acc := by
  induction s generalizing acc sv with
  | nil => simp at hks
  | cons q s ih =>
    simp only [List.map_cons, List.nodup_cons] at hs
    rw [List.foldl_cons]
    by_cases hq : q.1 = k
    · have hqv : q = (k, v) := by
        rcases List.mem_cons.mp hks with heq | hmem
        · exact heq.symm
        · exfalso
          apply hs.1
          rw [hq]
          exact List.mem_map.mpr ⟨(k, v), hmem, rfl⟩
      rw [hqv]
      apply mem_foldl_upsertSparse_of_ne
      · exact upsertSparse_updates acc k dv sv v hacc he
      · exact hq ▸ hs.1
    · have hmem : (k, v) ∈ s := by
        rcases List.mem_cons.mp hks with heq | hmem
        · exact absurd (by rw [← heq]) hq
        · exact hmem
      exact ih (upsertSparse acc q) sv (nodup_keys_upsertSparse acc q hacc) hs.2
        (mem_upsertSparse_of_ne acc q (k, dv, sv) he (fun h => hq h.symm)) hmem

theorem foldl_upsertSparse_new (s : List (String × ℝ)) (acc : List (String × ℝ × ℝ))
    (k : String) (v : ℝ) (hs : (s.map Prod.fst).Nodup) (hk : k ∉ acc.map Prod.fst)
    (hks : (k, v) ∈ s) : (k, 0, v) ∈ s.foldl upsertSparse acc := by
  induction s generalizing acc with
  | nil => simp at hks
  | cons q s ih =>
    simp only [List.map_cons, List.nodup_cons] at hs
    rw [List.foldl_cons]
    by_cases hq : q.1 = k
    · have hqv : q = (k, v) := by
        rcases List.mem_cons.mp hks with heq | hmem
        · exact heq.symm
        · exfalso
          apply hs.1
          rw [hq]
          exact List.mem_map.mpr ⟨(k, v), hmem, rfl⟩
      rw [hqv, upsertSparse_not_mem acc (k, v) hk]
      apply mem_foldl_upsertSparse_of_ne
      · simp
      · exact hq ▸ hs.1
    · have hmem : (k, v) ∈ s := by
        rcases List.mem_cons.mp hks with heq | hmem
        · exact absurd (by rw [← heq]) hq
        · exact hmem
      apply ih (upsertSparse acc q) hs.2 _ hmem
      intro hcontra
      rcases (mem_keys_upsertSparse acc q k).mp hcontra with h | h
      · exact hk h
      · exact hq h.symm

theorem denseDict_eq (dense : List (String × ℝ)) (hd : (dense.map Prod.fst).Nodup) :
    dense.foldl upsertDense [] = dense.map (fun p => (p.1, p.2, 0)) := by
  simpa using foldl_upsertDense_eq dense [] hd (by simp)

theorem denseDict_keys (dense : List (String × ℝ)) (hd : (dense.map Prod.fst).Nodup) :
    (dense.foldl upsertDense []).map Prod.fst = dense.map Prod.fst := by
  rw [denseDict_eq dense hd, List.map_map]
  rfl

/-- Claim C5: the fused result set of `HybridRetrievalTool.search` is the
union by source key of the dense and sparse sub-results; a key present in
both carries `w_dense*dense + w_sparse*sparse`, a key present in only one
has the missing score contribute exactly `0`; the output is the stable
descending sort of the fused scores truncated to `top_k`. -/
theorem hybrid_fusion_spec (wd ws : ℝ) (dense sparse : List (String × ℝ)) (topk : ℕ)
    (hd : (dense.map Prod.fst).Nodup) (hs : (sparse.map Prod.fst).Nodup) :
    (∀ k, k ∈ (hybridScores wd ws dense sparse).map Prod.fst ↔
        k ∈ dense.map Prod.fst ∨ k ∈ sparse.map Prod.fst) ∧
    (∀ k dv sv, (k, dv) ∈ dense → (k, sv) ∈ sparse →
        (k, wd * dv + ws * sv) ∈ hybridScores wd ws dense sparse) ∧
    (∀ k dv, (k, dv) ∈ dense → k ∉ sparse.map Prod.fst →
        (k, wd * dv + ws * 0) ∈ hybridScores wd ws dense sparse) ∧
    (∀ k sv, k ∉ dense.map Prod.fst → (k, sv) ∈ sparse →
        (k, wd * 0 + ws * sv) ∈ hybridScores wd ws dense sparse) ∧
    hybridSearch wd ws dense sparse topk =
      (sortDesc Prod.snd (hybridScores wd ws dense sparse)).take topk ∧
    List.Pairwise (fun p p' => p'.2 ≤ p.2) (hybridSearch wd ws dense sparse topk) := by
  have hkeys := denseDict_keys dense hd
  have hnodacc : ((dense.foldl upsertDense []).map Prod.fst).Nodup := by
    rw [hkeys]
    exact hd
  have hsk : (hybridScores wd ws dense sparse).map Prod.fst =
      (hybridDict dense sparse).map Prod.fst := by
    rw [hybridScores, List.map_map]
    rfl
  refine ⟨?_, ?_, ?_, ?_, rfl, ?_⟩
  · intro k
    rw [hsk, hybridDict, mem_keys_foldl_upsertSparse, hkeys]
  · intro k dv sv hkd hks
    have hin : (k, dv, 0) ∈ dense.foldl upsertDense [] := by
      rw [denseDict_eq dense hd]
      exact List.mem_map.mpr ⟨(k, dv), hkd, rfl⟩
    have hmem := foldl_upsertSparse_updates sparse _ k dv 0 sv hnodacc hs hin hks
    exact List.mem_map.mpr ⟨(k, dv, sv), hmem, rfl⟩
  · intro k dv hkd hnots
    have hin : (k, dv, 0) ∈ dense.foldl upsertDense [] := by
      rw [denseDict_eq dense hd]
      exact List.mem_map.mpr ⟨(k, dv), hkd, rfl⟩
    have hmem := mem_foldl_upsertSparse_of_ne sparse _ (k, dv, 0) hin hnots
    exact List.mem_map.mpr ⟨(k, dv, 0), hmem, rfl⟩
  · intro k sv hnotd hks
    have hk : k ∉ (dense.foldl upsertDense []).map Prod.fst := by
      rw [hkeys]
      exact hnotd
    have hmem := foldl_upsertSparse_new sparse _ k sv hs hk hks
    exact List.mem_map.mpr ⟨(k, 0, sv), hmem, rfl⟩
  · exact List.Pairwise.sublist (List.take_sublist _ _) (pairwise_sortDesc Prod.snd _)

/-- Claim C5 (witness): one dense-only and one sparse-only key with the
default weights `0.6` and `0.4`. -/
theorem hybrid_fusion_spec_witness :
    (∀ k, k ∈ (hybridScores (3/5) (2/5) [("a", 1/2)] [("b", 1/4)]).map Prod.fst ↔
        k ∈ ([("a", (1/2 : ℝ))].map Prod.fst) ∨ k ∈ ([("b", (1/4 : ℝ))].map Prod.fst)) ∧
    (∀ k dv sv, (k, dv) ∈ [("a", (1/2 : ℝ))] → (k, sv) ∈ [("b", (1/4 : ℝ))] →
        (k, (3/5) * dv + (2/5) * sv) ∈ hybridScores (3/5) (2/5) [("a", 1/2)] [("b", 1/4)]) ∧
    (∀ k dv, (k, dv) ∈ [("a", (1/2 : ℝ))] → k ∉ ([("b", (1/4 : ℝ))].map Prod.fst) →
        (k, (3/5) * dv + (2/5) * 0) ∈ hybridScores (3/5) (2/5) [("a", 1/2)] [("b", 1/4)]) ∧
    (∀ k sv, k ∉ ([("a", (1/2 : ℝ))].map Prod.fst) → (k, sv) ∈ [("b", (1/4 : ℝ))] →
        (k, (3/5) * 0 + (2/5) * sv) ∈ hybridScores (3/5) (2/5) [("a", 1/2)] [("b", 1/4)]) ∧
    hybridSearch (3/5) (2/5) [("a", 1/2)] [("b", 1/4)] 10 =
      (sortDesc Prod.snd (hybridScores (3/5) (2/5) [("a", 1/2)] [("b", 1/4)])).take 10 ∧
    List.Pairwise (fun p p' => p'.2 ≤ p.2)
      (hybridSearch (3/5) (2/5) [("a", 1/2)] [("b", 1/4)] 10) :=
  hybrid_fusion_spec (3/5) (2/5) [("a", 1/2)] [("b", 1/4)] 10 (by simp) (by simp)

theorem upsertDense_bounds (l : List (String × ℝ × ℝ)) (kv : String × ℝ)
    (hl : ∀ e ∈ l, (0 ≤ e.2.1 ∧ e.2.1 ≤ 1) ∧ (0 ≤ e.2.2 ∧ e.2.2 ≤ 1))
    (hv : 0 ≤ kv.2 ∧ kv.2 ≤ 1) :
    ∀ e ∈ upsertDense l kv, (0 ≤ e.2.1 ∧ e.2.1 ≤ 1) ∧ (0 ≤ e.2.2 ∧ e.2.2 ≤ 1) := by
  induction l with
  | nil =>
    intro e he
    simp only [upsertDense, List.mem_singleton] at he
    subst he
    exact ⟨hv, by norm_num⟩
  | cons f rest ih =>
    intro e he
    by_cases hf : f.1 = kv.1
    · rw [upsertDense, if_pos hf] at he
      rcases List.mem_cons.mp he with rfl | he'
      · exact ⟨hv, (hl f (List.mem_cons_self _ _)).2⟩
      · exact hl e (List.mem_cons_of_mem _ he')
    · rw [upsertDense, if_neg hf] at he
      rcases List.mem_cons.mp he with rfl | he'
      · exact hl e (List.mem_cons_self _ _)
      · exact ih (fun e' he'' => hl e' (List.mem_cons_of_mem _ he'')) e he'

theorem upsertSparse_bounds (l : List (String × ℝ × ℝ)) (kv : String × ℝ)
    (hl : ∀ e ∈ l, (0 ≤ e.2.1 ∧ e.2.1 ≤ 1) ∧ (0 ≤ e.2.2 ∧ e.2.2 ≤ 1))
    (hv : 0 ≤ kv.2 ∧ kv.2 ≤ 1) :
    ∀ e ∈ upsertSparse l kv, (0 ≤ e.2.1 ∧ e.2.1 ≤ 1) ∧ (0 ≤ e.2.2 ∧ e.2.2 ≤ 1) := by
  induction l with
  | nil =>
    intro e he
    simp only [upsertSparse, List.mem_singleton] at he
    subst he
    exact ⟨by norm_num, hv⟩
  | cons f rest ih =>
    intro e he
    by_cases hf : f.1 = kv.1
    · rw [upsertSparse, if_pos hf] at he
      rcases List.mem_cons.mp he with rfl | he'
      · exact ⟨(hl f (List.mem_cons_self _ _)).1, hv⟩
      · exact hl e (List.mem_cons_of_mem _ he')
    · rw [upsertSparse, if_neg hf] at he
      rcases List.mem_cons.mp he with rfl | he'
      · exact hl e (List.mem_cons_self _ _)
      · exact ih (fun e' he'' => hl e' (List.mem_cons_of_mem _ he'')) e he'

theorem foldl_upsertDense_bounds (d : List (String × ℝ)) (acc : List (String × ℝ × ℝ))
    (hacc : ∀ e ∈ acc, (0 ≤ e.2.1 ∧ e.2.1 ≤ 1) ∧ (0 ≤ e.2.2 ∧ e.2.2 ≤ 1))
    (hd : ∀ p ∈ d, 0 ≤ p.2 ∧ p.2 ≤ 1) :
    ∀ e ∈ d.foldl upsertDense acc, (0 ≤ e.2.1 ∧ e.2.1 ≤ 1) ∧ (0 ≤ e.2.2 ∧ e.2.2 ≤ 1) := by
  induction d generalizing acc with
  | nil => simpa using hacc
  | cons p d ih =>
    rw [List.foldl_cons]
    exact ih (upsertDense acc p)
      (upsertDense_bounds acc p hacc (hd p (List.mem_cons_self _ _)))
      (fun q hq => hd q (List.mem_cons_of_mem _ hq))

theorem foldl_upsertSparse_bounds (s : List (String × ℝ)) (acc : List (String × ℝ × ℝ))
    (hacc : ∀ e ∈ acc, (0 ≤ e.2.1 ∧ e.2.1 ≤ 1) ∧ (0 ≤ e.2.2 ∧ e.2.2 ≤ 1))
    (hs : ∀ p ∈ s, 0 ≤ p.2 ∧ p.2 ≤ 1) :
    ∀ e ∈ s.foldl upsertSparse acc, (0 ≤ e.2.1 ∧ e.2.1 ≤ 1) ∧ (0 ≤ e.2.2 ∧ e.2.2 ≤ 1) := by
  induction s generalizing acc with
  | nil => simpa using hacc
  | cons p s ih =>
    rw [List.foldl_cons]
    exact ih (upsertSparse acc p)
      (upsertSparse_bounds acc p hacc (hs p (List.mem_cons_self _ _)))
      (fun q hq => hs q (List.mem_cons_of_mem _ hq))

theorem hybridSearch_bounds (dense sparse : List (String × ℝ)) (topk : ℕ)
    (hd : ∀ p ∈ dense, 0 ≤ p.2 ∧ p.2 ≤ 1) (hs : ∀ p ∈ sparse, 0 ≤ p.2 ∧ p.2 ≤ 1) :
    ∀ p ∈ hybridSearch (3/5) (2/5) dense sparse topk, 0 ≤ p.2 ∧ p.2 ≤ 1 := by
  intro p hp
  rw [hybridSearch] at hp
  have hp' := (mem_sortDesc Prod.snd p _).mp ((List.take_sublist _ _).subset hp)
  rw [hybridScores, List.mem_map] at hp'
  obtain ⟨e, he, hep⟩ := hp'
  have hbounds := foldl_upsertSparse_bounds sparse _
    (foldl_upsertDense_bounds dense [] (by simp) hd) hs e he
  rw [← hep]
  constructor
  · have := hbounds.1.1
    have := hbounds.2.1
    simp only
    nlinarith
  · have := hbounds.1.2
    have := hbounds.2.2
    simp only
    nlinarith

/-- Claim C10: every relevance score handed out by the three retrieval
tools lies in `[0, 1]`: dense results are cosine similarities that passed
the default `0.1` threshold and are bounded by `1` via Cauchy-Schwarz;
BM25 results are `min(score/10, 1)` over strictly positive raw scores;
hybrid results are the `0.6/0.4` convex combination of sub-scores that
are themselves in `[0, 1]`. -/
theorem retrieval_relevance_bounds :
    (∀ (docs : List Doc) (query : List String) (topk : ℕ),
      ∀ p ∈ denseSearch docs query topk (1/10), 0 ≤ p.2 ∧ p.2 ≤ 1) ∧
    (∀ (k1 b : ℝ) (docs : List Doc) (q : List String) (topk : ℕ),
      ∀ p ∈ bm25Search k1 b docs q topk,
        0 ≤ bm25Relevance p ∧ bm25Relevance p ≤ 1) ∧
    (∀ (dense sparse : List (String × ℝ)) (topk : ℕ),
      (∀ p ∈ dense, 0 ≤ p.2 ∧ p.2 ≤ 1) → (∀ p ∈ sparse, 0 ≤ p.2 ∧ p.2 ≤ 1) →
      ∀ p ∈ hybridSearch (3/5) (2/5) dense sparse topk, 0 ≤ p.2 ∧ p.2 ≤ 1) := by
  refine ⟨denseSearch_score_bounds, ?_, hybridSearch_bounds⟩
  intro k1 b docs q topk p hp
  have hpos := bm25Search_pos k1 b docs q topk p hp
  rw [bm25Relevance]
  constructor
  · apply le_min
    · positivity
    · norm_num
  · exact min_le_right _ _

/-- Claim C10 (witness): the hybrid conjunct applied to a concrete
dense-only sub-result list. -/
theorem retrieval_relevance_bounds_witness :
    ∀ p ∈ hybridSearch (3/5) (2/5) [("a", 1/2)] [] 5, 0 ≤ p.2 ∧ p.2 ≤ 1 :=
  retrieval_relevance_bounds.2.2 [("a", 1/2)] [] 5
    (by
      intro p hp
      rw [List.mem_singleton] at hp
      rw [hp]
      norm_num)
    (by simp)

/-! ### Workflow state machine (`research_nodes.py`, `research_workflow.py`)

The LangGraph workflow drives Planning, Search, Analysis, Iteration,
Synthesis and Report nodes over the shared `ResearchState`.  The control
flow depends on the content analyzer and the search tools only through:
whether any results exist, the follow-up-question list, and the filtered
relevant-result count; these are abstracted into an `Oracle` indexed by
the step counter, so the termination bounds hold for adversarial
analyzers.  `max_iterations` is configuration, never written by any node,
and is passed as a fixed parameter. -/

/-- `ResearchStatus`. -/
inductive RStatus where
  | planning
  | searching
  | analyzing
  | iterating
  | synthesizing
  | completed
  deriving DecidableEq

/-- The LangGraph node names. -/
inductive NodeId where
  | planning
  | search
  | analysis
  | iteration
  | synthesis
  | report
  deriving DecidableEq

/-- Abstraction of everything the control flow consumes from the
analyzer and the search tools at step `t`. -/
structure Oracle where
  strategies : List String
  found : ℕ → Bool
  followUps : ℕ → List String
  relevantCount : ℕ → ℕ

/-- The control-relevant projection of `ResearchState`. -/
structure CtrlState where
  status : RStatus
  currentIteration : ℕ
  pending : List String
  hasResults : Bool
  hasIterations : Bool
  lastFollowUps : List String

/-- One node execution, mirroring the bodies of `PlanningNode`,
`SearchNode`, `AnalysisNode`, `IterationNode`, `SynthesisNode` and
`ReportNode` as far as they touch control state. -/
def execNode (o : Oracle) (mi : ℕ) (t : ℕ) (n : NodeId) (s : CtrlState) : CtrlState :=
  match n with
  | NodeId.planning =>
      { s with status := RStatus.searching, currentIteration := 0,
               pending := o.strategies }
  | NodeId.search =>
      match s.pending with
      | [] => { s with status := RStatus.analyzing }
      | _ :: rest =>
          if rest.isEmpty then
            { s with pending := rest, hasResults := s.hasResults || o.found t,
                     status := RStatus.analyzing }
          else
            { s with pending := rest, hasResults := s.hasResults || o.found t }
  | NodeId.analysis =>
      if s.hasResults = false then { s with status := RStatus.completed }
      else if s.currentIteration < mi ∧ o.followUps t ≠ [] ∧ o.relevantCount t < 20 then
        { s with hasIterations := true, lastFollowUps := o.followUps t,
                 status := RStatus.iterating }
      else
        { s with hasIterations := true, lastFollowUps := o.followUps t,
                 status := RStatus.synthesizing }
  | NodeId.iteration =>
      if s.hasIterations = false then { s with status := RStatus.synthesizing }
      else if s.lastFollowUps ≠ [] then
        { s with currentIteration := s.currentIteration + 1,
                 pending := if 1 < s.currentIteration + 1 then
                     ["grep_search", "fuzzy_search", "dense_retrieval", "bm25_retrieval"]
                   else ["grep_search", "fuzzy_search"],
                 status := RStatus.searching }
      else { s with status := RStatus.synthesizing }
  | NodeId.synthesis => { s with status := RStatus.completed }
  | NodeId.report => s

/-- The graph edges of `_build_workflow`, including the two conditional
edges `_search_condition` and `_analysis_condition`; `none` is `END`. -/
def nextNode (n : NodeId) (s : CtrlState) : Option NodeId :=
  match n with
  | NodeId.planning => some NodeId.search
  | NodeId.search =>
      if s.pending.isEmpty then some NodeId.analysis else some NodeId.search
  | NodeId.analysis =>
      if s.status = RStatus.iterating then some NodeId.iteration
      else some NodeId.synthesis
  | NodeId.iteration => some NodeId.search
  | NodeId.synthesis => some NodeId.report
  | NodeId.report => none

/-- The streaming loop of `run_research`: each executed node bumps
`step_count`, and the loop breaks as soon as `step_count > 20`
(`if step_count > 20: break`).  Returns the final step count, the number
of Iteration-node executions, and the last state.  `fuel` is a proof
artifact: `runAux_fuel_eq` shows any fuel of at least `21 - sc` gives the
same run, so the break is what stops the loop. -/
def runAux (o : Oracle) (mi : ℕ) : ℕ → ℕ → ℕ → NodeId → CtrlState → ℕ × ℕ × CtrlState
  | 0, sc, ic, _, s => (sc, ic, s)
  | fuel + 1, sc, ic, n, s =>
    let s' := execNode o mi sc n s
    let ic' := if n = NodeId.iteration then ic + 1 else ic
    match nextNode n s' with
    | none => (sc + 1, ic', s')
    | some n' =>
        if 20 < sc + 1 then (sc + 1, ic', s') else runAux o mi fuel (sc + 1) ic' n' s'

/-- `create_initial_state`. -/
def initCtrl : CtrlState :=
  { status := RStatus.planning, currentIteration := 0, pending := [],
    hasResults := false, hasIterations := false, lastFollowUps := [] }

/-- `run_research`: stream the workflow from the Planning node with the
hard 20-step ceiling. -/
def runResearch (o : Oracle) (mi : ℕ) : ℕ × ℕ × CtrlState :=
  runAux o mi 21 0 0 NodeId.planning initCtrl

/-- Invariant tying the Iteration-execution count to the iteration
counter: the counter dominates the count, stays within `max_iterations`,
and the Iteration node is only ever entered with the analysis gate
satisfied. -/
abbrev CtrlInv (mi : ℕ) (n : NodeId) (s : CtrlState) (ic : ℕ) : Prop :=
  ic ≤ s.currentIteration ∧ s.currentIteration ≤ mi ∧
  (n = NodeId.planning → ic = 0) ∧
  (n = NodeId.iteration → s.hasIterations = true ∧ s.lastFollowUps ≠ [] ∧
    s.currentIteration < mi)

theorem ctrlInv_preserved (o : Oracle) (mi t : ℕ) (n : NodeId) (s : CtrlState) (ic : ℕ)
    (h : CtrlInv mi n s ic) :
    (if n = NodeId.iteration then ic + 1 else ic) ≤ (execNode o mi t n s).currentIteration ∧
    (execNode o mi t n s).currentIteration ≤ mi ∧
    (∀ n', nextNode n (execNode o mi t n s) = some n' →
      CtrlInv mi n' (execNode o mi t n s) (if n = NodeId.iteration then ic + 1 else ic)) := by
  obtain ⟨h1, h2, h3, h4⟩ := h
  cases n with
  | planning =>
    have hic : ic = 0 := h3 rfl
    subst hic
    refine ⟨by simp [execNode], by simpa [execNode] using Nat.zero_le mi, ?_⟩
    intro n' hn'
    simp only [nextNode, Option.some.injEq] at hn'
    subst hn'
    exact ⟨by simp [execNode], by simpa [execNode] using Nat.zero_le mi,
      nofun, nofun⟩
  | search =>
    have hci : (execNode o mi t NodeId.search s).currentIteration = s.currentIteration := by
      rw [execNode]
      cases s.pending with
      | nil => rfl
      | cons a rest =>
        by_cases hr : rest.isEmpty
        · simp [hr]
        · simp [hr]
    refine ⟨by simpa [hci] using h1, by simpa [hci] using h2, ?_⟩
    intro n' hn'
    have hmem : n' = NodeId.analysis ∨ n' = NodeId.search := by
      rw [nextNode] at hn'
      by_cases hp : (execNode o mi t NodeId.search s).pending.isEmpty
      · rw [if_pos hp] at hn'
        exact Or.inl (Option.some.injEq _ _ ▸ hn').symm
      · rw [if_neg hp] at hn'
        exact Or.inr (Option.some.injEq _ _ ▸ hn').symm
    rcases hmem with rfl | rfl
    · exact ⟨by simpa [hci] using h1, by simpa [hci] using h2,
        nofun, nofun⟩
    · exact ⟨by simpa [hci] using h1, by simpa [hci] using h2,
        nofun, nofun⟩
  | analysis =>
    by_cases hres : s.hasResults = false
    · have hexec : execNode o mi t NodeId.analysis s =
          { s with status := RStatus.completed } := by
        rw [execNode, if_pos hres]
      refine ⟨by simp [hexec, h1], by simpa [hexec] using h2, ?_⟩
      intro n' hn'
      rw [nextNode, hexec] at hn'
      simp only [Option.some.injEq] at hn'
      have hne : ¬ (RStatus.completed = RStatus.iterating) := by decide
      rw [if_neg (by simpa using hne)] at hn'
      have : n' = NodeId.synthesis := by simpa using hn'.symm
      subst this
      exact ⟨by simp [hexec, h1], by simpa [hexec] using h2,
        nofun, nofun⟩
    · by_cases hgate : s.currentIteration < mi ∧ o.followUps t ≠ [] ∧
          o.relevantCount t < 20
      · have hexec : execNode o mi t NodeId.analysis s =
            { s with hasIterations := true, lastFollowUps := o.followUps t,
                     status := RStatus.iterating } := by
          rw [execNode, if_neg hres, if_pos hgate]
        refine ⟨by simp [hexec, h1], by simpa [hexec] using h2, ?_⟩
        intro n' hn'
        rw [nextNode, hexec] at hn'
        simp only [if_pos] at hn'
        have : n' = NodeId.iteration := by simpa using hn'.symm
        subst this
        refine ⟨by simp [hexec, h1], by simpa [hexec] using h2,
          nofun, fun _ => ?_⟩
        refine ⟨by simp [hexec], by simpa [hexec] using hgate.2.1,
          by simpa [hexec] using hgate.1⟩
      · have hexec : execNode o mi t NodeId.analysis s =
            { s with hasIterations := true, lastFollowUps := o.followUps t,
                     status := RStatus.synthesizing } := by
          rw [execNode, if_neg hres, if_neg hgate]
        refine ⟨by simp [hexec, h1], by simpa [hexec] using h2, ?_⟩
        intro n' hn'
        rw [nextNode, hexec] at hn'
        have hne : ¬ (RStatus.synthesizing = RStatus.iterating) := by decide
        rw [if_neg (by simpa using hne)] at hn'
        simp only [Option.some.injEq] at hn'
        have : n' = NodeId.synthesis := hn'.symm
        subst this
        exact ⟨by simp [hexec, h1], by simpa [hexec] using h2,
          nofun, nofun⟩
  | iteration =>
    obtain ⟨hit, hfu, hlt⟩ := h4 rfl
    have hexec : execNode o mi t NodeId.iteration s =
        { s with currentIteration := s.currentIteration + 1,
                 pending := if 1 < s.currentIteration + 1 then
                     ["grep_search", "fuzzy_search", "dense_retrieval", "bm25_retrieval"]
                   else ["grep_search", "fuzzy_search"],
                 status := RStatus.searching } := by
      rw [execNode, if_neg (by simp [hit]), if_pos hfu]
    refine ⟨by simpa [hexec] using Nat.succ_le_succ h1, by simpa [hexec] using hlt, ?_⟩
    intro n' hn'
    rw [nextNode] at hn'
    simp only [Option.some.injEq] at hn'
    have : n' = NodeId.search := hn'.symm
    subst this
    exact ⟨by simpa [hexec] using Nat.succ_le_succ h1, by simpa [hexec] using hlt,
      nofun, nofun⟩
  | synthesis =>
    refine ⟨by simpa [execNode] using h1, by simpa [execNode] using h2, ?_⟩
    intro n' hn'
    rw [nextNode] at hn'
    simp only [Option.some.injEq] at hn'
    have : n' = NodeId.report := hn'.symm
    subst this
    exact ⟨by simpa [execNode] using h1, by simpa [execNode] using h2,
      nofun, nofun⟩
  | report =>
    refine ⟨by simpa [execNode] using h1, by simpa [execNode] using h2, ?_⟩
    intro n' hn'
    rw [nextNode] at hn'
    cases hn'

theorem runAux_ic_le (o : Oracle) (mi : ℕ) :
    ∀ (fuel sc ic : ℕ) (n : NodeId) (s : CtrlState), CtrlInv mi n s ic →
      (runAux o mi fuel sc ic n s).2.1 ≤ mi := by
  intro fuel
  induction fuel with
  | zero =>
    intro sc ic n s h
    exact le_trans h.1 h.2.1
  | succ fuel ih =>
    intro sc ic n s h
    have hpres := ctrlInv_preserved o mi sc n s ic h
    rw [runAux]
    rcases hnn : nextNode n (execNode o mi sc n s) with _ | n'
    · simp only [hnn]
      exact le_trans hpres.1 hpres.2.1
    · simp only [hnn]
      by_cases hsc : 20 < sc + 1
      · rw [if_pos hsc]
        exact le_trans hpres.1 hpres.2.1
      · rw [if_neg hsc]
        exact ih (sc + 1) _ n' _ (hpres.2.2 n' hnn)

theorem runAux_sc_le (o : Oracle) (mi : ℕ) :
    ∀ (fuel sc ic : ℕ) (n : NodeId) (s : CtrlState), sc ≤ 20 →
      (runAux o mi fuel sc ic n s).1 ≤ 21 := by
  intro fuel
  induction fuel with
  | zero =>
    intro sc ic n s hsc
    exact le_trans hsc (by norm_num)
  | succ fuel ih =>
    intro sc ic n s hsc
    rw [runAux]
    rcases hnn : nextNode n (execNode o mi sc n s) with _ | n'
    · simp only [hnn]
      omega
    · simp only [hnn]
      by_cases hsc' : 20 < sc + 1
      · rw [if_pos hsc']
        omega
      · rw [if_neg hsc']
        exact ih (sc + 1) _ n' _ (by omega)

theorem runAux_fuel_eq (o : Oracle) (mi : ℕ) :
    ∀ (f1 f2 sc ic : ℕ) (n : NodeId) (s : CtrlState), sc ≤ 20 →
      21 ≤ sc + f1 → 21 ≤ sc + f2 →
      runAux o mi f1 sc ic n s = runAux o mi f2 sc ic n s := by
  intro f1
  induction f1 with
  | zero =>
    intro f2 sc ic n s hsc h1 h2
    exact absurd h1 (by omega)
  | succ f1 ih =>
    intro f2 sc ic n s hsc h1 h2
    cases f2 with
    | zero => exact absurd h2 (by omega)
    | succ f2 =>
      rw [runAux, runAux]
      rcases hnn : nextNode n (execNode o mi sc n s) with _ | n'
      · simp only [hnn]
      · simp only [hnn]
        by_cases hsc' : 20 < sc + 1
        · rw [if_pos hsc', if_pos hsc']
        · rw [if_neg hsc', if_neg hsc']
          exact ih f2 (sc + 1) _ n' _ (by omega) (by omega) (by omega)

/-- Claim C2: the streamed research run always terminates.  Any fuel of
at least `21` yields the same run (the `step_count > 20` break, not the
fuel, stops the loop), the run executes at most `21` workflow steps, and
the number of Iteration-node executions (SEARCHING-ITERATING cycles) is
at most `max_iterations`, hence at most `max_iterations + 20`; when the
ceiling fires the driver simply returns whatever state exists. -/
theorem research_loop_terminates (o : Oracle) (mi : ℕ) :
    (∀ fuel, 21 ≤ fuel →
      runAux o mi fuel 0 0 NodeId.planning initCtrl = runResearch o mi) ∧
    (runResearch o mi).1 ≤ 21 ∧
    (runResearch o mi).2.1 ≤ mi ∧ (runResearch o mi).2.1 ≤ mi + 20 := by
  have hinv : CtrlInv mi NodeId.planning initCtrl 0 :=
    ⟨le_refl 0, Nat.zero_le mi, fun _ => rfl, nofun⟩
  refine ⟨?_, ?_, ?_, ?_⟩
  · intro fuel hf
    exact runAux_fuel_eq o mi fuel 21 0 0 NodeId.planning initCtrl (by norm_num)
      (by omega) (by norm_num)
  · exact runAux_sc_le o mi 21 0 0 NodeId.planning initCtrl (by norm_num)
  · exact runAux_ic_le o mi 21 0 0 NodeId.planning initCtrl hinv
  · exact le_trans (runAux_ic_le o mi 21 0 0 NodeId.planning initCtrl hinv)
      (Nat.le_add_right mi 20)

/-- An adversarial oracle that always produces follow-up questions. -/
def adversarialOracle : Oracle :=
  { strategies := ["grep_search", "fuzzy_search"], found := fun _ => true,
    followUps := fun _ => ["follow-up"], relevantCount := fun _ => 5 }

/-- Claim C2 (witness): the bounds at a concrete adversarial oracle and
`max_iterations = 3`. -/
theorem research_loop_terminates_witness :
    runAux adversarialOracle 3 21 0 0 NodeId.planning initCtrl =
      runResearch adversarialOracle 3 ∧
    (runResearch adversarialOracle 3).1 ≤ 21 ∧
    (runResearch adversarialOracle 3).2.1 ≤ 3 ∧
    (runResearch adversarialOracle 3).2.1 ≤ 23 :=
  ⟨(research_loop_terminates adversarialOracle 3).1 21 (by norm_num),
   (research_loop_terminates adversarialOracle 3).2.1,
   (research_loop_terminates adversarialOracle 3).2.2.1,
   (research_loop_terminates adversarialOracle 3).2.2.2⟩

/-! ### Analysis and synthesis node data flow (`research_nodes.py`)

`AnalysisNode` filters the accumulated results by the similarity
threshold (falling back to the top 10 by score), and decides the next
stage; `SynthesisNode` computes the confidence score. -/

/-- The fields of the `SearchResult` dataclass the analysis and synthesis
nodes read. -/
structure SearchResult where
  source : String
  relevanceScore : ℝ

/-- The `relevant_results` filtering of `AnalysisNode.__call__`: keep
results with `relevance_score >= similarity_threshold`; when none
qualify, fall back to the top 10 results by descending score. -/
noncomputable def relevantResults (rs : List SearchResult) (threshold : ℝ) :
    List SearchResult :=
  let rel := rs.filter (fun r => decide (threshold ≤ r.relevanceScore))
  if rel.isEmpty then (sortDesc SearchResult.relevanceScore rs).take 10 else rel

/-- The stage decision of `AnalysisNode.__call__`: `COMPLETED` on an
empty result list, `ITERATING` iff the iteration budget remains, the
analyzer produced follow-up questions and fewer than 20 relevant results
exist, `SYNTHESIZING` otherwise.  `followUps` is the analyzer output. -/
noncomputable def analysisNextStatus (rs : List SearchResult) (threshold : ℝ)
    (currentIteration maxIterations : ℕ) (followUps : List String) : RStatus :=
  if rs.isEmpty then RStatus.completed
  else if currentIteration < maxIterations ∧ followUps ≠ [] ∧
      (relevantResults rs threshold).length < 20 then RStatus.iterating
  else RStatus.synthesizing

/-- `unique_sources = len(set(r.source for r in results))`. -/
def uniqueSources (rs : List SearchResult) : ℕ :=
  ((rs.map SearchResult.source).dedup).length

/-- The `confidence_factors` list of `SynthesisNode.__call__`:
`[min(avg*2,1), min(iterations/3,1), min(unique_sources/10,1)]` when
results exist, `[0.1]` otherwise. -/
noncomputable def confidenceFactors (rs : List SearchResult) (numIterations : ℕ) :
    List ℝ :=
  if rs.isEmpty then [1/10]
  else [min (((rs.map SearchResult.relevanceScore).sum / (rs.length : ℝ)) * 2) 1,
        min ((numIterations : ℝ) / 3) 1,
        min ((uniqueSources rs : ℝ) / 10) 1]

/-- `confidence_score = sum(confidence_factors) / len(confidence_factors)`. -/
noncomputable def confidenceScore (rs : List SearchResult) (numIterations : ℕ) : ℝ :=
  (confidenceFactors rs numIterations).sum /
    ((confidenceFactors rs numIterations).length : ℝ)

/-- Claim C3: the synthesized confidence always lies in `[0.1, 1]`; with
no results at all it is exactly `0.1`, and the Synthesis node always
moves the run to `COMPLETED`.  The two hypotheses hold on every run:
result scores are non-negative, and synthesis only runs after at least
one analysis pass appended an iteration record when results exist. -/
theorem synthesis_confidence_bounds (rs : List SearchResult) (numIterations : ℕ)
    (hscores : ∀ r ∈ rs, 0 ≤ r.relevanceScore)
    (hiters : rs ≠ [] → 1 ≤ numIterations) :
    (1/10 ≤ confidenceScore rs numIterations ∧ confidenceScore rs numIterations ≤ 1) ∧
    (rs = [] → confidenceScore rs numIterations = 1/10) ∧
    (∀ (o : Oracle) (mi t : ℕ) (s : CtrlState),
      (execNode o mi t NodeId.synthesis s).status = RStatus.completed) := by
  refine ⟨?_, ?_, fun o mi t s => rfl⟩
  · by_cases hrs : rs = []
    · subst hrs
      rw [confidenceScore, confidenceFactors]
      norm_num
    · have hne : rs.isEmpty = false := by simpa [List.isEmpty_iff] using hrs
      have hlen : 0 < (rs.length : ℝ) := by
        have := List.length_pos.mpr hrs
        positivity
      have havg : 0 ≤ (rs.map SearchResult.relevanceScore).sum / (rs.length : ℝ) := by
        apply div_nonneg _ (le_of_lt hlen)
        apply List.sum_nonneg
        intro x hx
        rw [List.mem_map] at hx
        obtain ⟨r, hr, hrx⟩ := hx
        rw [← hrx]
        exact hscores r hr
      have hf1l : (0 : ℝ) ≤
          min (((rs.map SearchResult.relevanceScore).sum / (rs.length : ℝ)) * 2) 1 :=
        le_min (by linarith) (by norm_num)
      have hf1u : min (((rs.map SearchResult.relevanceScore).sum / (rs.length : ℝ)) * 2) 1
          ≤ 1 := min_le_right _ _
      have hn1 : 1 ≤ numIterations := hiters hrs
      have hf2l : (1 : ℝ)/3 ≤ min ((numIterations : ℝ) / 3) 1 := by
        apply le_min _ (by norm_num)
        have : (1 : ℝ) ≤ (numIterations : ℝ) := by exact_mod_cast hn1
        linarith
      have hf2u : min ((numIterations : ℝ) / 3) 1 ≤ 1 := min_le_right _ _
      have hu1 : 1 ≤ uniqueSources rs := by
        rw [uniqueSources]
        apply List.length_pos.mpr
        intro hcon
        rw [List.dedup_eq_nil, List.map_eq_nil_iff] at hcon
        exact hrs hcon
      have hf3l : (1 : ℝ)/10 ≤ min ((uniqueSources rs : ℝ) / 10) 1 := by
        apply le_min _ (by norm_num)
        have : (1 : ℝ) ≤ (uniqueSources rs : ℝ) := by exact_mod_cast hu1
        linarith
      have hf3u : min ((uniqueSources rs : ℝ) / 10) 1 ≤ 1 := min_le_right _ _
      rw [confidenceScore, confidenceFactors, if_neg (by simp [hne])]
      simp only [List.sum_cons, List.sum_nil, List.length_cons, List.length_nil]
      push_cast
      constructor
      · rw [le_div_iff₀ (by norm_num)]
        linarith
      · rw [div_le_one (by norm_num)]
        linarith
  · intro hrs
    subst hrs
    rw [confidenceScore, confidenceFactors]
    norm_num

/-- Claim C3 (witness): one result with score `1/2` after one iteration,
and the empty-result case at iteration count `0`. -/
theorem synthesis_confidence_bounds_witness :
    ((1/10 ≤ confidenceScore [⟨"a", 1/2⟩] 1 ∧ confidenceScore [⟨"a", 1/2⟩] 1 ≤ 1) ∧
      ([⟨"a", (1/2 : ℝ)⟩] = ([] : List SearchResult) →
        confidenceScore [⟨"a", 1/2⟩] 1 = 1/10) ∧
      (∀ (o : Oracle) (mi t : ℕ) (s : CtrlState),
        (execNode o mi t NodeId.synthesis s).status = RStatus.completed)) ∧
    ((1/10 ≤ confidenceScore [] 0 ∧ confidenceScore [] 0 ≤ 1) ∧
      (([] : List SearchResult) = [] → confidenceScore [] 0 = 1/10) ∧
      (∀ (o : Oracle) (mi t : ℕ) (s : CtrlState),
        (execNode o mi t NodeId.synthesis s).status = RStatus.completed)) :=
  ⟨synthesis_confidence_bounds [⟨"a", 1/2⟩] 1
      (by
        intro r hr
        rw [List.mem_singleton] at hr
        rw [hr]
        norm_num)
      (fun _ => le_refl 1),
   synthesis_confidence_bounds [] 0 (by simp) (fun h => absurd rfl h)⟩

/-- Claim C4: with a non-empty accumulated result list, analysis moves to
`ITERATING` exactly when `current_iteration < max_iterations`, the
analyzer produced follow-up questions, and fewer than 20 filtered
relevant results exist; in every other case it moves to `SYNTHESIZING`. -/
theorem analysis_transition_iff (rs : List SearchResult) (threshold : ℝ)
    (ci mi : ℕ) (fu : List String) (h : rs ≠ []) :
    (analysisNextStatus rs threshold ci mi fu = RStatus.iterating ↔
      ci < mi ∧ fu ≠ [] ∧ (relevantResults rs threshold).length < 20) ∧
    (¬(ci < mi ∧ fu ≠ [] ∧ (relevantResults rs threshold).length < 20) →
      analysisNextStatus rs threshold ci mi fu = RStatus.synthesizing) := by
  have hne : rs.isEmpty = false := by simpa [List.isEmpty_iff] using h
  rw [analysisNextStatus, if_neg (by simp [hne])]
  by_cases hg : ci < mi ∧ fu ≠ [] ∧ (relevantResults rs threshold).length < 20
  · rw [if_pos hg]
    exact ⟨⟨fun _ => hg, fun _ => rfl⟩, fun hcon => absurd hg hcon⟩
  · rw [if_neg hg]
    exact ⟨⟨nofun, fun hgate => absurd hgate hg⟩, fun _ => rfl⟩

/-- Claim C4 (witness): one result, iteration budget left, follow-ups
present, few relevant results. -/
theorem analysis_transition_iff_witness :
    (analysisNextStatus [⟨"a", 1/2⟩] (3/10) 0 3 ["q"] = RStatus.iterating ↔
      0 < 3 ∧ (["q"] : List String) ≠ [] ∧
        (relevantResults [⟨"a", 1/2⟩] (3/10)).length < 20) ∧
    (¬(0 < 3 ∧ (["q"] : List String) ≠ [] ∧
        (relevantResults [⟨"a", 1/2⟩] (3/10)).length < 20) →
      analysisNextStatus [⟨"a", 1/2⟩] (3/10) 0 3 ["q"] = RStatus.synthesizing) :=
  analysis_transition_iff [⟨"a", 1/2⟩] (3/10) 0 3 ["q"] (List.cons_ne_nil _ _)

/-- Claim C6: the filtered set handed to the analyzer is exactly the
results meeting the threshold; when none do, it is the top 10 results by
descending score, so analysis never sees an empty set while any results
exist. -/
theorem relevance_filter_fallback (rs : List SearchResult) (threshold : ℝ)
    (h : rs ≠ []) :
    ((rs.filter (fun r => decide (threshold ≤ r.relevanceScore))).isEmpty = false →
      relevantResults rs threshold =
        rs.filter (fun r => decide (threshold ≤ r.relevanceScore))) ∧
    ((rs.filter (fun r => decide (threshold ≤ r.relevanceScore))).isEmpty = true →
      relevantResults rs threshold =
        (sortDesc SearchResult.relevanceScore rs).take 10) ∧
    relevantResults rs threshold ≠ [] := by
  have hself : relevantResults rs threshold =
      (if (rs.filter (fun r => decide (threshold ≤ r.relevanceScore))).isEmpty then
        (sortDesc SearchResult.relevanceScore rs).take 10
      else rs.filter (fun r => decide (threshold ≤ r.relevanceScore))) := rfl
  refine ⟨?_, ?_, ?_⟩
  · intro hf
    rw [hself, hf]
    rfl
  · intro hf
    rw [hself, hf]
    rfl
  · by_cases hf : (rs.filter (fun r => decide (threshold ≤ r.relevanceScore))).isEmpty
    · rw [hself, if_pos hf]
      intro hcon
      have hlen := congrArg List.length hcon
      rw [List.length_take, length_sortDesc, List.length_nil] at hlen
      have hpos : 0 < min 10 rs.length :=
        lt_min (by norm_num) (List.length_pos.mpr h)
      omega
    · rw [hself, if_neg hf]
      intro hcon
      rw [hcon] at hf
      exact hf rfl

/-- Claim C6 (witness): one result below the threshold exercises the
top-10 fallback; the same theorem also covers the pass-through case. -/
theorem relevance_filter_fallback_witness :
    ((([⟨"a", (1/5 : ℝ)⟩] : List SearchResult).filter
        (fun r => decide ((3/10 : ℝ) ≤ r.relevanceScore))).isEmpty = false →
      relevantResults [⟨"a", 1/5⟩] (3/10) =
        ([⟨"a", (1/5 : ℝ)⟩] : List SearchResult).filter
          (fun r => decide ((3/10 : ℝ) ≤ r.relevanceScore))) ∧
    ((([⟨"a", (1/5 : ℝ)⟩] : List SearchResult).filter
        (fun r => decide ((3/10 : ℝ) ≤ r.relevanceScore))).isEmpty = true →
      relevantResults [⟨"a", 1/5⟩] (3/10) =
        (sortDesc SearchResult.relevanceScore [⟨"a", 1/5⟩]).take 10) ∧
    relevantResults [⟨"a", 1/5⟩] (3/10) ≠ [] :=
  relevance_filter_fallback [⟨"a", 1/5⟩] (3/10) (List.cons_ne_nil _ _)

/-- An oracle with ten initial strategies and ever-present follow-ups:
it drives the streamed run into the hard step ceiling. -/
def ceilingOracle : Oracle :=
  { strategies := ["s1", "s2", "s3", "s4", "s5", "s6", "s7", "s8", "s9", "s10"],
    found := fun _ => true, followUps := fun _ => ["follow-up"],
    relevantCount := fun _ => 0 }

/-- Claim C2 (counterexample): when the hard ceiling fires, the run stops
after 21 steps but the final status is whatever stage was in flight —
`ANALYZING` here — not `COMPLETED`: the break leaves the state as-is
instead of marking the run complete. -/
theorem step_ceiling_status_example :
    (runResearch ceilingOracle 100).1 = 21 ∧
    (runResearch ceilingOracle 100).2.2.status = RStatus.analyzing ∧
    (runResearch ceilingOracle 100).2.2.status ≠ RStatus.completed := by
  refine ⟨by decide, by decide, by decide⟩

/-! ### Chunking (`DenseRetrievalTool._split_into_chunks` and
`index_documents`) -/

/-- Python's `range(0, n, step)` as a list (empty when `step = 0`, where
Python would raise `ValueError` instead). -/
def rangeStep (n step : ℕ) : List ℕ :=
  (List.range ((n + step - 1) / step)).map (fun i => i * step)

/-- `_split_into_chunks`: the slices `words[i : i + chunk_size//10]` for
`i in range(0, len(words), chunk_size//10)`.  The loop comment in the
source says "Overlap chunks", but the stride equals the slice width, so
consecutive chunks are disjoint. -/
def splitIntoChunks (words : List String) (chunkSize : ℕ) : List (List String) :=
  (rangeStep words.length (chunkSize / 10)).map
    (fun i => (words.drop i).take (chunkSize / 10))

/-- The chunking decision of `index_documents`: texts longer than
`chunk_size` characters are split, shorter ones are stored whole as one
chunk (`contentLen` is `len(content)` in characters). -/
def indexChunks (words : List String) (contentLen chunkSize : ℕ) : List (List String) :=
  if chunkSize < contentLen then splitIntoChunks words chunkSize else [words]

/-- Claim C9 (code bug evidence): a 20-word text chunked with
`chunk_size = 100` yields two consecutive 10-word chunks sharing no token
at all — no overlap, contradicting the source's own "Overlap chunks"
comment and the spec's overlap contract — while a text shorter than
`chunk_size` is indeed stored as exactly one chunk. -/
theorem split_into_chunks_no_overlap :
    splitIntoChunks
      ["w01", "w02", "w03", "w04", "w05", "w06", "w07", "w08", "w09", "w10",
       "w11", "w12", "w13", "w14", "w15", "w16", "w17", "w18", "w19", "w20"] 100 =
      [["w01", "w02", "w03", "w04", "w05", "w06", "w07", "w08", "w09", "w10"],
       ["w11", "w12", "w13", "w14", "w15", "w16", "w17", "w18", "w19", "w20"]] ∧
    (∀ w ∈ ["w01", "w02", "w03", "w04", "w05", "w06", "w07", "w08", "w09", "w10"],
      w ∉ ["w11", "w12", "w13", "w14", "w15", "w16", "w17", "w18", "w19", "w20"]) ∧
    indexChunks ["short", "text"] 10 1000 = [["short", "text"]] := by
  refine ⟨by decide, by decide, by decide⟩
